import Mathlib

/-!
Verification of the poker equity backend (src/backend/main.cpp).

The file embeds the two HTTP handlers of `main.cpp` (`/evaluate` and `/equity`)
as pure Lean functions, together with spec-modelled stand-ins for the OMPEval
library calls (`CardRange::getCardMask`, the `CardRange` constructor and
`EquityCalculator`) whose sources are not part of this repository.  Theorems
then settle the frozen claims about parsing, validation order, category
derivation and aggregation.
-/

/-! ## Card codec (modelled from the spec, §4.1)

`parseCard` is `Modelled from the spec:` the card token parser inside
OMPEval's `CardRange` (omp/EquityCalculator.h), which is not under src/.
Per §4.1 a token is one rank character (2-9, T, J, Q, K, A, case-insensitive)
followed by one suit character (s, h, d, c); the encoding of a card as an
integer in [0,52) is a rank/suit bijection (§3); the concrete packing
(rank-2)*4+suit is a model choice the spec leaves open. -/

def rankVal (c : Char) : Option Nat :=
  match c.toUpper with
  | 'A' => some 14
  | 'K' => some 13
  | 'Q' => some 12
  | 'J' => some 11
  | 'T' => some 10
  | '9' => some 9
  | '8' => some 8
  | '7' => some 7
  | '6' => some 6
  | '5' => some 5
  | '4' => some 4
  | '3' => some 3
  | '2' => some 2
  | _ => none

def suitVal (c : Char) : Option Nat :=
  match c with
  | 's' => some 0
  | 'h' => some 1
  | 'd' => some 2
  | 'c' => some 3
  | _ => none

def parseCard (t : Char × Char) : Option Nat :=
  match rankVal t.1, suitVal t.2 with
  | some r, some su => some ((r - 2) * 4 + su)
  | _, _ => none

/-! ## Whole-sequence card parsing (modelled from the spec, §4.1)

`getCardMask` is `Modelled from the spec:` `CardRange::getCardMask`
(omp/EquityCalculator.h), not under src/.  Per §4.1 `parseCardSequence`
splits the text into consecutive 2-character tokens — whitespace between
tokens is ignored, embedded whitespace inside a token is not — parses each
token with `parseCard`, fails on any malformed token or on a duplicated
card, and unions the card bits. -/

def seqTokens : Option Char → List Char → Except Unit (List (Char × Char))
  | none, [] => .ok []
  | some _, [] => .error ()
  | none, c :: rest =>
    if c = ' ' then seqTokens none rest
    else seqTokens (some c) rest
  | some a, c :: rest =>
    match seqTokens none rest with
    | .error e => .error e
    | .ok tl => .ok ((a, c) :: tl)

def exceptMapM {ε α β : Type} (p : α → Except ε β) : List α → Except ε (List β)
  | [] => .ok []
  | a :: rest =>
    match p a with
    | .error e => .error e
    | .ok b =>
      match exceptMapM p rest with
      | .error e => .error e
      | .ok bs => .ok (b :: bs)

instance {ε α : Type} [DecidableEq ε] [DecidableEq α] : DecidableEq (Except ε α)
  | .error e, .error f =>
    if h : e = f then isTrue (by rw [h])
    else isFalse (by intro hh; cases hh; exact h rfl)
  | .error _, .ok _ => isFalse (by intro h; cases h)
  | .ok _, .error _ => isFalse (by intro h; cases h)
  | .ok a, .ok b =>
    if h : a = b then isTrue (by rw [h])
    else isFalse (by intro hh; cases hh; exact h rfl)

def parseCardE (t : Char × Char) : Except Unit Nat :=
  match parseCard t with
  | some i => .ok i
  | none => .error ()

def getCardMask (s : String) : Except Unit Nat :=
  match seqTokens none s.data with
  | .error e => .error e
  | .ok toks =>
    match exceptMapM parseCardE toks with
    | .error e => .error e
    | .ok idxs =>
      if idxs.Nodup then .ok (idxs.foldl (fun a i => a ||| 2 ^ i) 0)
      else .error ()

/-! ## Hand category (src/backend/main.cpp, `getHandCategory`, lines 14-28) -/

def categorySwitch (category : Nat) : String :=
  match category with
  | 0 => "High Card"
  | 1 => "Pair"
  | 2 => "Two Pair"
  | 3 => "Three of a Kind"
  | 4 => "Straight"
  | 5 => "Flush"
  | 6 => "Full House"
  | 7 => "Four of a Kind"
  | 8 => "Straight Flush"
  | _ => "Unknown"

def getHandCategory (ranking : Nat) : String :=
  categorySwitch (ranking / 4096)

/-- Spec-side definition (refinement target): the nine standard categories in
the order the spec lists them (High Card = 0 … Straight Flush = 8). -/
def specCategoryNames : List String :=
  ["High Card", "Pair", "Two Pair", "Three of a Kind", "Straight",
   "Flush", "Full House", "Four of a Kind", "Straight Flush"]

/-! ## The /evaluate handler (src/backend/main.cpp, lines 127-192)

The tokenizer is the loop at lines 143-151: spaces are skipped, every other
character is appended to an accumulator that is flushed as a token once it
holds two characters; a trailing unpaired character is never flushed. -/

def tokenizeAux : Option Char → List Char → List (Char × Char)
  | _, [] => []
  | acc, c :: rest =>
    if c = ' ' then tokenizeAux acc rest
    else
      match acc with
      | none => tokenizeAux (some c) rest
      | some a => (a, c) :: tokenizeAux none rest

def tokenizeHand (s : String) : List (Char × Char) :=
  tokenizeAux none s.data

/-- Characterisation helper: chunk a character list into consecutive pairs,
dropping a trailing unpaired character. -/
def pairUp : List Char → List (Char × Char)
  | a :: b :: rest => (a, b) :: pairUp rest
  | _ => []

def isNotSpace (c : Char) : Bool := !(c == ' ')

inductive EvalErr where
  | badCount
  | parseFail
  deriving DecidableEq

structure EvalResponse where
  ranking : Nat
  category : String
  numCards : Nat
  deriving DecidableEq

/-- Modelled from the spec: `omp::HandEvaluator::evaluate` together with
`omp::Hand` construction (omp/HandEvaluator.h), not under src/.  §4.3 fixes
the ordering of rankings, which no claim settled here inspects; what the
claims use is only that evaluation is a total function of the card multiset
(order-independence is a §4.3 invariant).  The model therefore evaluates to
the OR of the cards' mask bits — exactly the information the handler feeds
the evaluator — leaving the ranking values themselves uninterpreted. -/
def specEvalRanking (cards : List Nat) : Nat :=
  cards.foldl (fun a c => a ||| 2 ^ c) 0

/-- Source line 164-172: `getCardMask` of a single token followed by the
loop recovering the lowest set bit index in [0,52), defaulting to 0. -/
def lowBit52 (m : Nat) : Nat :=
  ((List.range 52).find? (fun i => m.testBit i)).getD 0

def parseCardMaskE (t : Char × Char) : Except EvalErr Nat :=
  match parseCard t with
  | some i => .ok (2 ^ i)
  | none => .error .parseFail

def evalCards (ev : List Nat → Nat) (cards : List (Char × Char)) :
    Except EvalErr EvalResponse :=
  if cards.length = 0 ∨ 7 < cards.length then .error .badCount
  else
    match exceptMapM parseCardMaskE cards with
    | .error e => .error e
    | .ok masks =>
      let r := ev (masks.map lowBit52)
      .ok ⟨r, getHandCategory r, cards.length⟩

def evaluateHandler (ev : List Nat → Nat) (s : String) :
    Except EvalErr EvalResponse :=
  evalCards ev (tokenizeHand s)

/-! ## Range parser (modelled from the spec, §4.2)

The range grammar is `Modelled from the spec:` the `CardRange` constructor
(omp/EquityCalculator.h), not under src/.  §4.2: a comma-separated list of
items, each with an optional `:weight` suffix (omitted means weight 1.0);
an item is an exact combo (`AhKh`), a pocket-pair shorthand (`AA`), a
suited/offsuit shorthand (`AKs`/`AKo`), a bare two-rank shorthand (`AK`),
any shorthand followed by `+`, or the wildcard `XX`; parsing fails on
unrecognized rank/suit letters, a malformed `+` suffix, or a weight that is
not a non-negative real number. -/

def splitOnChar (sep : Char) : List Char → List (List Char)
  | [] => [[]]
  | c :: rest =>
    let r := splitOnChar sep rest
    if c = sep then [] :: r
    else
      match r with
      | [] => [[c]]
      | h :: t => (c :: h) :: t

def digitVal (c : Char) : Option Nat :=
  if '0' ≤ c ∧ c ≤ '9' then some (c.toNat - '0'.toNat) else none

def digitsVal : List Char → Option Nat
  | [] => none
  | [c] => digitVal c
  | c :: rest =>
    match digitVal c, digitsVal rest with
    | some d, some v => some (v * 10 + d)
    | _, _ => none

def parseWeight (cs : List Char) : Option Rat :=
  match splitOnChar '.' cs with
  | [ip] => (fun n => (n : Rat)) <$> digitsVal ip.reverse
  | [ip, fp] =>
    match ip, fp with
    | [], [] => none
    | [], _ =>
      (fun f => (f : Rat) / (10 ^ fp.length : Nat)) <$> digitsVal fp.reverse
    | _, [] => (fun n => (n : Rat)) <$> digitsVal ip.reverse
    | _, _ =>
      match digitsVal ip.reverse, digitsVal fp.reverse with
      | some n, some f => some ((n : Rat) + (f : Rat) / (10 ^ fp.length : Nat))
      | _, _ => none
  | _ => none

inductive RangeItem where
  | combo (c1 c2 : Nat)
  | pocketPair (r : Nat)
  | suited (r1 r2 : Nat)
  | offsuit (r1 r2 : Nat)
  | bare (r1 r2 : Nat)
  | wildcard
  deriving DecidableEq

structure WeightedItem where
  item : RangeItem
  plus : Bool
  weight : Rat
  deriving DecidableEq

def plusAllowed : RangeItem → Bool
  | .pocketPair _ => true
  | .suited _ _ => true
  | .offsuit _ _ => true
  | .bare _ _ => true
  | _ => false

def parseBody : List Char → Option RangeItem
  | [a, b] =>
    if a = 'X' ∧ b = 'X' then some .wildcard
    else
      match rankVal a, rankVal b with
      | some r1, some r2 =>
        if r1 = r2 then some (.pocketPair r1) else some (.bare r1 r2)
      | _, _ => none
  | [a, b, s] =>
    match rankVal a, rankVal b with
    | some r1, some r2 =>
      if r1 = r2 then none
      else
        match s with
        | 's' => some (.suited r1 r2)
        | 'o' => some (.offsuit r1 r2)
        | _ => none
    | _, _ => none
  | [a, b, c, d] =>
    match parseCard (a, b), parseCard (c, d) with
    | some c1, some c2 => some (.combo c1 c2)
    | _, _ => none
  | _ => none

def parseBodyPlus (cs : List Char) : Option WeightedItem :=
  if cs.getLast? = some '+' then
    match parseBody cs.dropLast with
    | some it => if plusAllowed it then some ⟨it, true, 1⟩ else none
    | none => none
  else
    match parseBody cs with
    | some it => some ⟨it, false, 1⟩
    | none => none

def parseItem (cs : List Char) : Option WeightedItem :=
  match splitOnChar ':' cs with
  | [b] => parseBodyPlus b
  | [b, w] =>
    match parseWeight w, parseBodyPlus b with
    | some wt, some wi => some ⟨wi.item, wi.plus, wt⟩
    | _, _ => none
  | _ => none

inductive EqErr where
  | handCount
  | parse
  | range
  deriving DecidableEq

def parseRange (s : String) : Except EqErr (List WeightedItem) :=
  match exceptMapM (fun cs =>
      match parseItem cs with
      | some wi => Except.ok wi
      | none => Except.error EqErr.range) (splitOnChar ',' s.data) with
  | .error e => .error e
  | .ok items => .ok items

/-! ## Worker aggregation (modelled from the spec, §5)

`Modelled from the spec:` the concurrency scheme of `omp::EquityCalculator`,
not under src/.  §5: the trial space is partitioned as contiguous sub-ranges
of the enumeration index space, each worker owns a private accumulator and
commits it once; the final aggregate is the merge of the per-worker sums. -/

def workerSum {α : Type} [AddCommMonoid α] (f : Nat → α) (lo n : Nat) : α :=
  ((List.range n).map (fun i => f (lo + i))).sum

def chunkOffsets : Nat → List Nat → List (Nat × Nat)
  | _, [] => []
  | lo, n :: rest => (lo, n) :: chunkOffsets (lo + n) rest

def mergeWorkers {α : Type} [AddCommMonoid α] (f : Nat → α)
    (chunks : List Nat) : α :=
  ((chunkOffsets 0 chunks).map (fun pr => workerSum f pr.1 pr.2)).sum

/-! ## Equity engine (modelled from the spec, §4.4-§5) -/

def popcountAux : Nat → Nat → Nat
  | 0, _ => 0
  | fuel + 1, m => m % 2 + popcountAux fuel (m / 2)

def popcount (m : Nat) : Nat := popcountAux 64 m

structure CalcResults where
  equity : List (Nat × Nat)
  wins : List Nat
  ties : List Nat
  hands : Nat
  speed : Nat
  exact : Bool
  deriving DecidableEq

/-- Modelled from the spec: the number of exhaustive trials; §4.4 enumerates
"all possible fillings of the remaining board cards from the undealt deck,
excluding all fixed/dead cards".  Per-player combo iteration and collision
skipping are beyond what any claim here inspects and are not modelled. -/
def specTrialCount (board dead : Nat) : Nat :=
  Nat.choose (52 - popcount (board ||| dead)) (5 - popcount board)

/-- Modelled from the spec: `omp::EquityCalculator` (omp/EquityCalculator.h),
not under src/.  §4.4: exhaustive mode is exact, sampling mode approximate,
and the mode flag chooses between them; the handler always runs `wait()` to
completion and exposes no cancellation, so the run's exactness equals the
`enumerateAll` flag.  §5: per-player counters are sums over the trial index
space, realised here with `workerSum`; the per-trial winner determination is
outside every claim's scope and is modelled by a fixed outcome pattern.
Floating point is not modelled: the §3 equity fraction wins/total is carried
as an unreduced numerator/denominator pair, and wall-clock speed (a real-time
measurement) as the constant 0. -/
def specEngine (ranges : List (List WeightedItem)) (board dead : Nat)
    (enumAll : Bool) : CalcResults :=
  let p := ranges.length
  let n := specTrialCount board dead
  let wins := (List.range p).map
    (fun i => workerSum (fun t => if t % p = i then 1 else 0) 0 n)
  { equity := (List.range p).map (fun i => (wins.getD i 0, n))
    wins := wins
    ties := List.replicate p 0
    hands := n
    speed := 0
    exact := enumAll }

/-! ## The /equity handler (src/backend/main.cpp, lines 52-124)

The handler extracts the `hands` array, rejects hand counts outside [2,6],
parses the optional board and dead card sequences with `getCardMask`
(an empty string short-circuits to mask 0, lines 75-80), computes the
`enumerate_all` flag with default `board.length() <= 6` (line 83), builds a
`CardRange` per hand (lines 89-92), runs the calculator and copies its
per-player results plus the local `enumerateAll` flag into the response
(lines 101-115).  A thrown parse error is surfaced as an error response by
the catch block (lines 119-123). -/

structure EquityRequest where
  hands : List String
  board : String
  dead : String
  enumerateAll : Option Bool
  deriving DecidableEq

structure EqResponse where
  equities : List (Nat × Nat)
  wins : List Nat
  ties : List Nat
  handsEvaluated : Nat
  speed : Nat
  enumeratedAll : Bool
  deriving DecidableEq

def boardMaskOf (req : EquityRequest) : Except EqErr Nat :=
  if req.board = "" then .ok 0
  else
    match getCardMask req.board with
    | .ok m => .ok m
    | .error _ => .error .parse

def deadMaskOf (req : EquityRequest) : Except EqErr Nat :=
  if req.dead = "" then .ok 0
  else
    match getCardMask req.dead with
    | .ok m => .ok m
    | .error _ => .error .parse

def enumAllOf (req : EquityRequest) : Bool :=
  req.enumerateAll.getD (decide (req.board.length ≤ 6))

def equityHandler
    (engine : List (List WeightedItem) → Nat → Nat → Bool → CalcResults)
    (req : EquityRequest) : Except EqErr EqResponse :=
  if req.hands.length < 2 ∨ 6 < req.hands.length then .error .handCount
  else
    match boardMaskOf req with
    | .error e => .error e
    | .ok bm =>
      match deadMaskOf req with
      | .error e => .error e
      | .ok dm =>
        match exceptMapM parseRange req.hands with
        | .error e => .error e
        | .ok ranges =>
          .ok { equities := (List.range req.hands.length).map
                  (fun i => (engine ranges bm dm (enumAllOf req)).equity.getD i (0, 1))
                wins := (List.range req.hands.length).map
                  (fun i => (engine ranges bm dm (enumAllOf req)).wins.getD i 0)
                ties := (List.range req.hands.length).map
                  (fun i => (engine ranges bm dm (enumAllOf req)).ties.getD i 0)
                handsEvaluated := (engine ranges bm dm (enumAllOf req)).hands
                speed := (engine ranges bm dm (enumAllOf req)).speed
                enumeratedAll := enumAllOf req }

/-! ## Helper lemmas -/

theorem tokenizeAux_eq (l : List Char) :
    ∀ acc : Option Char,
      tokenizeAux acc l = pairUp (acc.toList ++ l.filter isNotSpace) := by
  induction l with
  | nil => intro acc; cases acc <;> rfl
  | cons c rest ih =>
    intro acc
    by_cases hc : c = ' '
    · subst hc
      cases acc <;>
        simp [tokenizeAux, List.filter_cons, isNotSpace, ih]
    · have hns : isNotSpace c = true := by simp [isNotSpace, hc]
      cases acc with
      | none =>
        simpa [tokenizeAux, hc, List.filter_cons, hns] using ih (some c)
      | some a =>
        simp [tokenizeAux, hc, List.filter_cons, hns, ih none, pairUp]

theorem pairUp_dropLast :
    ∀ (l : List Char), l.length % 2 = 1 → pairUp l = pairUp l.dropLast
  | [], h => by simp at h
  | [_], _ => rfl
  | a :: b :: rest, h => by
    have hr : rest.length % 2 = 1 := by
      simp only [List.length_cons] at h; omega
    cases rest with
    | nil => simp at hr
    | cons x t =>
      have ih := pairUp_dropLast (x :: t) hr
      simp only [pairUp, List.dropLast_cons₂]
      rw [ih]

theorem exceptMapM_isOk {ε α β : Type} (p : α → Except ε β) (l : List α) :
    (exceptMapM p l).isOk = true ↔ ∀ a ∈ l, (p a).isOk = true := by
  induction l with
  | nil => simp [exceptMapM, Except.isOk, Except.toBool]
  | cons a rest ih =>
    simp only [exceptMapM, List.forall_mem_cons]
    cases hpa : p a with
    | error e => simp [Except.isOk, Except.toBool, hpa]
    | ok b =>
      cases hmr : exceptMapM p rest with
      | error e =>
        rw [← ih, hmr]
        simp [Except.isOk, Except.toBool]
      | ok bs =>
        rw [← ih, hmr]
        simp [Except.isOk, Except.toBool]

theorem exceptMapM_error_mem {ε α β : Type} (p : α → Except ε β) (l : List α)
    (e : ε) (h : exceptMapM p l = .error e) : ∃ a ∈ l, p a = .error e := by
  induction l with
  | nil => simp [exceptMapM] at h
  | cons a rest ih =>
    simp only [exceptMapM] at h
    cases hpa : p a with
    | error f =>
      rw [hpa] at h
      cases h
      exact ⟨a, List.mem_cons_self a rest, hpa⟩
    | ok b =>
      rw [hpa] at h
      cases hmr : exceptMapM p rest with
      | error f =>
        rw [hmr] at h
        cases h
        obtain ⟨x, hx, hpx⟩ := ih hmr
        exact ⟨x, List.mem_cons_of_mem a hx, hpx⟩
      | ok bs => rw [hmr] at h; cases h

theorem parseRange_error (s : String) (e : EqErr)
    (h : parseRange s = .error e) : e = .range := by
  unfold parseRange at h
  cases hm : exceptMapM (fun cs =>
      match parseItem cs with
      | some wi => Except.ok wi
      | none => Except.error EqErr.range) (splitOnChar ',' s.data) with
  | error f =>
    rw [hm] at h
    cases h
    obtain ⟨cs, _, hcs⟩ := exceptMapM_error_mem _ _ _ hm
    cases hit : parseItem cs with
    | some wi => rw [hit] at hcs; cases hcs
    | none => rw [hit] at hcs; cases hcs; rfl
  | ok items => rw [hm] at h; cases h

theorem boardMaskOf_error (req : EquityRequest) (e : EqErr)
    (h : boardMaskOf req = .error e) : e = .parse := by
  unfold boardMaskOf at h
  split at h
  · cases h
  · cases hg : getCardMask req.board with
    | error f => rw [hg] at h; cases h; rfl
    | ok m => rw [hg] at h; cases h

theorem deadMaskOf_error (req : EquityRequest) (e : EqErr)
    (h : deadMaskOf req = .error e) : e = .parse := by
  unfold deadMaskOf at h
  split at h
  · cases h
  · cases hg : getCardMask req.dead with
    | error f => rw [hg] at h; cases h; rfl
    | ok m => rw [hg] at h; cases h

theorem parseCardMaskE_isOk (t : Char × Char) :
    (parseCardMaskE t).isOk = (parseCard t).isSome := by
  unfold parseCardMaskE
  cases parseCard t <;> simp [Except.isOk, Except.toBool]

theorem evalCards_ok (ev : List Nat → Nat) (cards : List (Char × Char))
    (hval : ∀ t ∈ cards, (parseCard t).isSome = true)
    (h1 : cards.length ≠ 0) (h7 : cards.length ≤ 7) :
    ∃ r, evalCards ev cards = .ok ⟨r, getHandCategory r, cards.length⟩ := by
  have hok : (exceptMapM parseCardMaskE cards).isOk = true := by
    rw [exceptMapM_isOk]
    intro t ht
    rw [parseCardMaskE_isOk]
    exact hval t ht
  unfold evalCards
  rw [if_neg (by omega)]
  cases hm : exceptMapM parseCardMaskE cards with
  | error e => rw [hm] at hok; simp [Except.isOk, Except.toBool] at hok
  | ok masks => exact ⟨ev (masks.map lowBit52), rfl⟩

theorem evalCards_badCount (ev : List Nat → Nat) (cards : List (Char × Char)) :
    evalCards ev cards = .error .badCount ↔
      (cards.length = 0 ∨ 7 < cards.length) := by
  unfold evalCards
  split
  · rename_i hcnt
    simpa using hcnt
  · rename_i hcnt
    apply iff_of_false _ hcnt
    cases hm : exceptMapM parseCardMaskE cards with
    | error e =>
      have he : e = EvalErr.parseFail := by
        obtain ⟨t, _, ht⟩ := exceptMapM_error_mem _ _ _ hm
        unfold parseCardMaskE at ht
        cases hp : parseCard t with
        | some i => rw [hp] at ht; cases ht
        | none => rw [hp] at ht; cases ht; rfl
      subst he
      simp
    | ok masks => simp

theorem categorySwitch_eq (q : Nat) :
    categorySwitch q = specCategoryNames.getD q "Unknown" := by
  rcases q with _|_|_|_|_|_|_|_|_|q <;> rfl

theorem workerSum_split {α : Type} [AddCommMonoid α] (f : Nat → α)
    (lo m k : Nat) :
    workerSum f lo (m + k) = workerSum f lo m + workerSum f (lo + m) k := by
  unfold workerSum
  rw [List.range_add, List.map_append, List.sum_append, List.map_map]
  congr 1
  apply congrArg
  apply List.map_congr_left
  intro i _
  simp [Nat.add_assoc]

theorem chunkOffsets_merge {α : Type} [AddCommMonoid α] (f : Nat → α) :
    ∀ (chunks : List Nat) (lo : Nat),
      ((chunkOffsets lo chunks).map (fun pr => workerSum f pr.1 pr.2)).sum =
        workerSum f lo chunks.sum := by
  intro chunks
  induction chunks with
  | nil => intro lo; simp [chunkOffsets, workerSum]
  | cons n rest ih =>
    intro lo
    simp only [chunkOffsets, List.map_cons, List.sum_cons, List.sum_cons, ih,
      workerSum_split]

/-! ## Claim theorems -/

/-- C1: for every ranking integer r, the category derived from r equals
r div 4096, and the nine category values 0 through 8 map, in order, to
High Card, Pair, Two Pair, Three of a Kind, Straight, Flush, Full House,
Four of a Kind, Straight Flush (rankings produced by the evaluator are
non-negative, so the C++ `int` division at line 15 is `Nat` division). -/
theorem getHandCategory_matches_spec_order (r : Nat) :
    getHandCategory r = specCategoryNames.getD (r / 4096) "Unknown" :=
  categorySwitch_eq (r / 4096)

/-- C2 counterexample: the hand string "AhAh" — the same card twice — is
accepted and evaluated by the hand-evaluation handler instead of failing
with a ParseError. -/
theorem evaluate_duplicate_card_accepted_cex :
    ¬ (((tokenizeHand "AhAh").filterMap parseCard).Nodup) ∧
    (evaluateHandler specEvalRanking "AhAh").isOk = true := by decide

/-- C2 amended: the hand-evaluation handler performs no duplicate-card
detection; a sequence of 1-7 individually valid card tokens containing the
same card twice is accepted and evaluated like any other. -/
theorem evaluate_no_duplicate_detection (ev : List Nat → Nat) (s : String)
    (hval : ∀ t ∈ tokenizeHand s, (parseCard t).isSome = true)
    (hdup : ¬ ((tokenizeHand s).filterMap parseCard).Nodup)
    (h1 : 1 ≤ (tokenizeHand s).length) (h7 : (tokenizeHand s).length ≤ 7) :
    ∃ r, evaluateHandler ev s =
      .ok ⟨r, getHandCategory r, (tokenizeHand s).length⟩ :=
  evalCards_ok ev (tokenizeHand s) hval (by omega) h7

/-- C2 witness: the amended theorem applied to the duplicated hand "AhAh". -/
theorem evaluate_no_duplicate_detection_witness :
    (¬ ((tokenizeHand "AhAh").filterMap parseCard).Nodup) ∧
    ∃ r, evaluateHandler specEvalRanking "AhAh" =
      .ok ⟨r, getHandCategory r, (tokenizeHand "AhAh").length⟩ :=
  ⟨by decide, evaluate_no_duplicate_detection specEvalRanking "AhAh"
    (by decide) (by decide) (by decide) (by decide)⟩

/-- C6: the hand-evaluation handler fails with the client-input count error
exactly when the tokenized card sequence is empty or longer than 7, and for
1-7 valid card tokens it returns a response carrying an integer ranking and
the category string derived from it. -/
theorem evaluate_count_check_and_success (ev : List Nat → Nat) (s : String)
    (hval : ∀ t ∈ tokenizeHand s, (parseCard t).isSome = true) :
    (evaluateHandler ev s = .error .badCount ↔
      ((tokenizeHand s).length = 0 ∨ 7 < (tokenizeHand s).length)) ∧
    (1 ≤ (tokenizeHand s).length → (tokenizeHand s).length ≤ 7 →
      ∃ r, evaluateHandler ev s =
        .ok ⟨r, getHandCategory r, (tokenizeHand s).length⟩) := by
  constructor
  · exact evalCards_badCount ev (tokenizeHand s)
  · intro h1 h7
    exact evalCards_ok ev (tokenizeHand s) hval (by omega) h7

/-- C6 witness: the theorem applied to the valid 2-card hand "AhKh". -/
theorem evaluate_count_check_and_success_witness :
    (∀ t ∈ tokenizeHand "AhKh", (parseCard t).isSome = true) ∧
    ((evaluateHandler specEvalRanking "AhKh" = .error .badCount ↔
      ((tokenizeHand "AhKh").length = 0 ∨ 7 < (tokenizeHand "AhKh").length)) ∧
    (1 ≤ (tokenizeHand "AhKh").length → (tokenizeHand "AhKh").length ≤ 7 →
      ∃ r, evaluateHandler specEvalRanking "AhKh" =
        .ok ⟨r, getHandCategory r, (tokenizeHand "AhKh").length⟩)) :=
  ⟨by decide, evaluate_count_check_and_success specEvalRanking "AhKh" (by decide)⟩

/-- C7 counterexample: the text "A hKh" (space embedded inside the first
token) is parsed as the two cards Ah and Kh and accepted, not rejected as
malformed. -/
theorem tokenizer_embedded_space_accepted_cex :
    tokenizeHand "A hKh" = [('A', 'h'), ('K', 'h')] ∧
    (evaluateHandler specEvalRanking "A hKh").isOk = true := by decide

/-- C7 amended: the hand-evaluation tokenizer ignores whitespace wherever it
occurs, including inside a would-be token: tokenization depends only on the
sequence of non-space characters. -/
theorem tokenizeHand_ignores_all_whitespace (s : String) :
    tokenizeHand s = tokenizeHand (String.mk (s.data.filter isNotSpace)) := by
  have h1 := tokenizeAux_eq s.data none
  have h2 := tokenizeAux_eq (s.data.filter isNotSpace) none
  have h3 : (s.data.filter isNotSpace).filter isNotSpace =
      s.data.filter isNotSpace :=
    List.filter_eq_self.mpr (fun a ha => (List.mem_filter.mp ha).2)
  unfold tokenizeHand
  show tokenizeAux none s.data = tokenizeAux none (s.data.filter isNotSpace)
  rw [h1, h2, h3]

/-- C10: when the non-whitespace content of the hand string has odd length,
the final unpaired character is silently dropped: the handler behaves
exactly as on the input with that character absent. -/
theorem evaluate_odd_trailing_char_dropped (ev : List Nat → Nat) (s : String)
    (hodd : (s.data.filter isNotSpace).length % 2 = 1) :
    evaluateHandler ev s =
      evaluateHandler ev (String.mk ((s.data.filter isNotSpace).dropLast)) := by
  have h1 := tokenizeAux_eq s.data none
  have h2 := tokenizeAux_eq ((s.data.filter isNotSpace).dropLast) none
  have h3 : ((s.data.filter isNotSpace).dropLast).filter isNotSpace =
      (s.data.filter isNotSpace).dropLast :=
    List.filter_eq_self.mpr
      (fun a ha => (List.mem_filter.mp (List.dropLast_subset _ ha)).2)
  have htok : tokenizeHand s =
      tokenizeHand (String.mk ((s.data.filter isNotSpace).dropLast)) := by
    unfold tokenizeHand
    show tokenizeAux none s.data =
      tokenizeAux none ((s.data.filter isNotSpace).dropLast)
    rw [h1, h2, h3]
    simpa using pairUp_dropLast _ hodd
  exact congrArg (evalCards ev) htok

/-- C10 witness: the theorem applied to "AhKhQ", whose trailing "Q" is
dropped so the hand evaluates as the 2-card hand Ah Kh. -/
theorem evaluate_odd_trailing_char_dropped_witness :
    ("AhKhQ".data.filter isNotSpace).length % 2 = 1 ∧
    evaluateHandler specEvalRanking "AhKhQ" =
      evaluateHandler specEvalRanking
        (String.mk (("AhKhQ".data.filter isNotSpace).dropLast)) :=
  ⟨by decide, evaluate_odd_trailing_char_dropped specEvalRanking "AhKhQ" (by decide)⟩

/-- C3 counterexample: a request whose board parses to six cards is accepted
and reaches the equity computation; no ConfigError (indeed no error at all)
is raised for the over-long board. -/
theorem equity_six_card_board_accepted_cex :
    popcount ((boardMaskOf
      ⟨["AhAd", "KhKd"], "2c3c4c5c6c7c", "", some true⟩).toOption.getD 0) = 6 ∧
    (equityHandler specEngine
      ⟨["AhAd", "KhKd"], "2c3c4c5c6c7c", "", some true⟩).isOk = true := by
  decide

/-- C3 amended: the handler performs no board-length validation at all — a
request succeeds exactly when the hand count is in [2,6] and the board, dead
and hand strings parse, regardless of how many cards the board holds (so
boards of 0-5 cards are accepted, and so are longer ones). -/
theorem equity_success_characterization
    (engine : List (List WeightedItem) → Nat → Nat → Bool → CalcResults)
    (req : EquityRequest) :
    (equityHandler engine req).isOk = true ↔
      (2 ≤ req.hands.length ∧ req.hands.length ≤ 6 ∧
       (boardMaskOf req).isOk = true ∧ (deadMaskOf req).isOk = true ∧
       ∀ h ∈ req.hands, (parseRange h).isOk = true) := by
  unfold equityHandler
  split
  · rename_i hcnt
    apply iff_of_false
    · simp [Except.isOk, Except.toBool]
    · rintro ⟨h2, h6, -⟩
      omega
  · rename_i hcnt
    cases hb : boardMaskOf req with
    | error e => simp [Except.isOk, Except.toBool]
    | ok bm =>
      cases hd : deadMaskOf req with
      | error e => simp [Except.isOk, Except.toBool]
      | ok dm =>
        cases hr : exceptMapM parseRange req.hands with
        | error e =>
          apply iff_of_false
          · simp [Except.isOk, Except.toBool]
          · rintro ⟨-, -, -, -, hall⟩
            have hok := (exceptMapM_isOk parseRange req.hands).mpr hall
            rw [hr] at hok
            simp [Except.isOk, Except.toBool] at hok
        | ok ranges =>
          apply iff_of_true
          · simp [Except.isOk, Except.toBool]
          · refine ⟨by omega, by omega, by simp [Except.isOk, Except.toBool],
              by simp [Except.isOk, Except.toBool], ?_⟩
            rw [← exceptMapM_isOk, hr]
            simp [Except.isOk, Except.toBool]

/-- C4: a request whose hand strings contain an invalid token is rejected
with the range-parse error before the engine is consulted — the conclusion
holds for every engine, so no engine output can reach the response. -/
theorem equity_invalid_hand_token_aborts
    (engine : List (List WeightedItem) → Nat → Nat → Bool → CalcResults)
    (req : EquityRequest)
    (hc2 : 2 ≤ req.hands.length) (hc6 : req.hands.length ≤ 6)
    (hb : (boardMaskOf req).isOk = true) (hd : (deadMaskOf req).isOk = true)
    (hbad : ∃ h ∈ req.hands, (parseRange h).isOk = false) :
    equityHandler engine req = .error .range := by
  unfold equityHandler
  rw [if_neg (by omega)]
  cases hbm : boardMaskOf req with
  | error e => rw [hbm] at hb; simp [Except.isOk, Except.toBool] at hb
  | ok bm =>
    cases hdm : deadMaskOf req with
    | error e => rw [hdm] at hd; simp [Except.isOk, Except.toBool] at hd
    | ok dm =>
      cases hr : exceptMapM parseRange req.hands with
      | error e =>
        have he : e = .range := by
          obtain ⟨h, _, hp⟩ := exceptMapM_error_mem _ _ _ hr
          exact parseRange_error h e hp
        subst he
        rfl
      | ok ranges =>
        exfalso
        obtain ⟨h, hmem, hbadh⟩ := hbad
        have hall := (exceptMapM_isOk parseRange req.hands).mp
          (by rw [hr]; rfl)
        rw [hall h hmem] at hbadh
        cases hbadh

/-- C4 witness: the theorem applied to the request with hands
["AhAd", "Z9"], whose second hand contains the invalid token Z9. -/
theorem equity_invalid_hand_token_aborts_witness :
    (∃ h ∈ (["AhAd", "Z9"] : List String), (parseRange h).isOk = false) ∧
    equityHandler specEngine ⟨["AhAd", "Z9"], "", "", none⟩ = .error .range :=
  ⟨by decide, equity_invalid_hand_token_aborts specEngine
    ⟨["AhAd", "Z9"], "", "", none⟩
    (by decide) (by decide) (by decide) (by decide) (by decide)⟩

/-- C5: the handler rejects a request with the hand-count error exactly when
the number of hand strings is below 2 or above 6; every count in [2,6]
passes this validation. -/
theorem equity_hand_count_check_iff
    (engine : List (List WeightedItem) → Nat → Nat → Bool → CalcResults)
    (req : EquityRequest) :
    equityHandler engine req = .error .handCount ↔
      (req.hands.length < 2 ∨ 6 < req.hands.length) := by
  unfold equityHandler
  split
  · rename_i hcnt
    simpa using hcnt
  · rename_i hcnt
    apply iff_of_false _ hcnt
    cases hb : boardMaskOf req with
    | error e =>
      have he := boardMaskOf_error req e hb
      subst he
      simp
    | ok bm =>
      cases hd : deadMaskOf req with
      | error e =>
        have he := deadMaskOf_error req e hd
        subst he
        simp
      | ok dm =>
        cases hr : exceptMapM parseRange req.hands with
        | error e =>
          have he : e = .range := by
            obtain ⟨h, _, hp⟩ := exceptMapM_error_mem _ _ _ hr
            exact parseRange_error h e hp
          subst he
          simp
        | ok ranges => simp

/-- C8: whenever the handler succeeds, the `enumerated_all` response field
equals the exactness of the engine run that produced the response (in the
spec model a run is exact precisely when it enumerates, and the handler
exposes no cancellation, so the echoed flag coincides with exactness). -/
theorem equity_enumerated_all_reflects_exactness (req : EquityRequest)
    (resp : EqResponse)
    (h : equityHandler specEngine req = .ok resp) :
    ∃ bm dm ranges, boardMaskOf req = .ok bm ∧ deadMaskOf req = .ok dm ∧
      exceptMapM parseRange req.hands = .ok ranges ∧
      resp.enumeratedAll = (specEngine ranges bm dm (enumAllOf req)).exact := by
  unfold equityHandler at h
  split at h
  · exact absurd h (by simp)
  · cases hbm : boardMaskOf req with
    | error e => rw [hbm] at h; exact absurd h (by simp)
    | ok bm =>
      rw [hbm] at h
      cases hdm : deadMaskOf req with
      | error e => rw [hdm] at h; exact absurd h (by simp)
      | ok dm =>
        rw [hdm] at h
        cases hr : exceptMapM parseRange req.hands with
        | error e => rw [hr] at h; exact absurd h (by simp)
        | ok ranges =>
          rw [hr] at h
          refine ⟨bm, dm, ranges, rfl, rfl, rfl, ?_⟩
          injection h with h'
          rw [← h']
          rfl

/-- C8 witness: the theorem applied to a concrete succeeding request with a
5-card board and `enumerate_all = true`. -/
theorem equity_enumerated_all_reflects_exactness_witness :
    ∃ bm dm ranges,
      boardMaskOf ⟨["AhAd", "KhKd"], "2c3c4c5c6c", "", some true⟩ = .ok bm ∧
      deadMaskOf ⟨["AhAd", "KhKd"], "2c3c4c5c6c", "", some true⟩ = .ok dm ∧
      exceptMapM parseRange ["AhAd", "KhKd"] = .ok ranges ∧
      (⟨[(1, 1), (0, 1)], [1, 0], [0, 0], 1, 0, true⟩ : EqResponse).enumeratedAll =
        (specEngine ranges bm dm
          (enumAllOf ⟨["AhAd", "KhKd"], "2c3c4c5c6c", "", some true⟩)).exact :=
  equity_enumerated_all_reflects_exactness
    ⟨["AhAd", "KhKd"], "2c3c4c5c6c", "", some true⟩
    ⟨[(1, 1), (0, 1)], [1, 0], [0, 0], 1, 0, true⟩ (by decide)

/-- C9: exhaustive aggregation is invariant to how the trial index space is
partitioned across workers — for every chunking of the engine's trial count,
merging the per-worker partial sums reproduces the engine's per-player win
counter exactly; determinism across repeated runs is immediate because the
embedded engine is a function of its inputs. -/
theorem specEngine_merge_invariance
    (ranges : List (List WeightedItem)) (board dead : Nat) (enumAll : Bool)
    (chunks : List Nat) (i : Nat) (hi : i < ranges.length)
    (hsum : chunks.sum = specTrialCount board dead) :
    mergeWorkers (fun t => if t % ranges.length = i then 1 else 0) chunks =
      (specEngine ranges board dead enumAll).wins.getD i 0 := by
  have hR : (specEngine ranges board dead enumAll).wins =
      (List.range ranges.length).map
        (fun j => workerSum (fun t => if t % ranges.length = j then 1 else 0)
          0 (specTrialCount board dead)) := rfl
  rw [hR, List.getD_eq_getElem?_getD, List.getElem?_map,
    List.getElem?_range hi, Option.map_some', Option.getD_some]
  unfold mergeWorkers
  rw [chunkOffsets_merge, hsum]

/-- C9 witness: the theorem applied to a 2-player engine call whose trial
space (one trial) is split into the chunk list [1, 0]. -/
theorem specEngine_merge_invariance_witness :
    ([1, 0] : List Nat).sum = specTrialCount 31 0 ∧
    mergeWorkers
      (fun t => if t % ([[], []] : List (List WeightedItem)).length = 0
        then 1 else 0) [1, 0] =
      (specEngine [[], []] 31 0 true).wins.getD 0 0 :=
  ⟨by decide, specEngine_merge_invariance [[], []] 31 0 true [1, 0] 0
    (by decide) (by decide)⟩
